import Mathlib

/-!
Verification development for the function-space basis engine of the nengo
utilities (nengo/utils/function_space.py).

The development has two layers, mirroring the structure of the source file:

* a list-of-rows layer for the sampling classes (Function,
  FunctionSpaceDistribution, Combined) and for the shape behaviour of
  compute_basis, where row and column counts are values, matching the dynamic
  shapes of numpy arrays (in particular, numpy slicing V[:n_basis] clips to
  the available rows, modelled with List.take);
* a typed matrix layer over Mathlib matrices for the linear algebra of
  compute_basis, project and reconstruct, where the SVD factors produced by
  the external numpy routine are parameters constrained by the usual
  orthogonality contract.

Random generators are modelled as an abstract state type threaded through
sampling calls, matching the mutable numpy RandomState objects; numpy
sampling with a given seed is deterministic, so samplers are pure functions
of the generator state.
-/

namespace NengoFS

open Matrix

/-! ### List-of-rows matrices (dynamic shapes, as numpy arrays) -/

/-- Elementwise sum of two vectors, as numpy addition of equal-length rows. -/
def vecAdd (a b : List ℝ) : List ℝ := List.zipWith (fun x y => x + y) a b

/-- Sum of a list of vectors along axis 0, as np.sum(total, axis=0) for a
nonempty list of equal-length rows. -/
def vecSum : List (List ℝ) → List ℝ
  | [] => []
  | v :: vs => vs.foldl vecAdd v

/-- Dot product of two rows. -/
def dotL (a b : List ℝ) : ℝ := (List.zipWith (fun x y => x * y) a b).sum

/-- Number of columns of a row-major matrix (length of the first row). -/
def colCount (m : List (List ℝ)) : ℕ := (m.headD []).length

/-- Transpose of a row-major matrix. -/
def transposeL (m : List (List ℝ)) : List (List ℝ) :=
  (List.range (colCount m)).map (fun j => m.map (fun r => r.getD j 0))

/-- Row-major matrix product, as np.dot for 2-D arrays. -/
def matMulL (a b : List (List ℝ)) : List (List ℝ) :=
  a.map (fun r => (transposeL b).map (fun c => dotL r c))

/-- Multiply every entry of a matrix by a scalar, as numpy array * w. -/
def scaleRows (m : List (List ℝ)) (w : ℝ) : List (List ℝ) :=
  m.map (fun r => r.map (fun x => x * w))

/-- Horizontal concatenation of a nonempty list of blocks with equal row
counts, as np.hstack. -/
def hstackL : List (List (List ℝ)) → List (List ℝ)
  | [] => []
  | [b] => b
  | b :: b2 :: bs => List.zipWith (fun r s => r ++ s) b (hstackL (b2 :: bs))

/-! ### Function (sampler over named parameter distributions) -/

/-- A parameter source for Function: either a sub-distribution (sampled with
the shared generator, returning a column of scalars) or a fixed scalar that
np.tile broadcasts across all draws. -/
inductive PSrc (Rng : Type) where
  | dist (sampler : ℕ → Rng → List ℝ × Rng)
  | const (c : ℝ)

/-- Build the kwargs columns of Function.sample: one column of n_samples
values per parameter, sampling sub-distributions with the generator threaded
through in parameter order, and replicating fixed scalars. -/
def sampleKwargs {Rng : Type} : List (PSrc Rng) → ℕ → Rng → List (List ℝ) × Rng
  | [], _, r => ([], r)
  | PSrc.dist s :: ps, n, r =>
      let sr := s n r
      let rest := sampleKwargs ps n sr.2
      (sr.1 :: rest.1, rest.2)
  | PSrc.const c :: ps, n, r =>
      let rest := sampleKwargs ps n r
      (List.replicate n c :: rest.1, rest.2)

/-- The tuple of parameter values at a given draw index, one value taken from
each kwargs column. -/
def argsAt (cols : List (List ℝ)) (idx : ℕ) : List ℝ :=
  cols.map (fun v => v.getD idx 0)

/-- The Function distribution: a user function over a parameter tuple, a
superimpose count, and the named parameter sources (in dict order). -/
structure FunctionDist (Rng : Type) where
  function : List ℝ → List ℝ
  superimpose : ℕ
  params : List (PSrc Rng)

/-- Inner loop of Function.sample: applies the user function superimpose
times, advancing the shared draw index after each call. -/
def innerLoop (f : List ℝ → List ℝ) (cols : List (List ℝ)) : ℕ → ℕ → List (List ℝ) × ℕ
  | 0, idx => ([], idx)
  | j + 1, idx =>
      let out := f (argsAt cols idx)
      let rest := innerLoop f cols j (idx + 1)
      (out :: rest.1, rest.2)

/-- Outer loop of Function.sample: n iterations, each summing one group of
superimpose outputs into a single sample row. -/
def outerLoop (f : List ℝ → List ℝ) (cols : List (List ℝ)) (si : ℕ) : ℕ → ℕ → List (List ℝ)
  | 0, _ => []
  | i + 1, idx =>
      let t := innerLoop f cols si idx
      vecSum t.1 :: outerLoop f cols si i t.2

/-- Function.sample: draw n * superimpose values per parameter, then run the
index-threaded double loop and stack the n summed rows. -/
def FunctionDist.sample {Rng : Type} (fd : FunctionDist Rng) (n : ℕ) (rng : Rng) :
    List (List ℝ) :=
  outerLoop fd.function (sampleKwargs fd.params (n * fd.superimpose) rng).1
    fd.superimpose n 0

/-! ### Combined (weighted concatenation distribution) -/

/-- Euclidean norm of a weight vector, as np.linalg.norm. -/
noncomputable def normL (w : List ℝ) : ℝ := Real.sqrt ((w.map (fun x => x ^ 2)).sum)

/-- The Combined distribution after its constructor ran: sub-distributions
(each a sampler taking n, its own dimensionality d, and the generator),
their declared dimensionalities, the stored weights, and the cached total
dimensionality. -/
structure CombinedD (Rng : Type) where
  distributions : List (ℕ → ℕ → Rng → List (List ℝ) × Rng)
  dimensions : List ℕ
  weights : List ℝ
  n_dimensions : ℕ

/-- Combined constructor: default weights are all ones (one per
sub-distribution); when normalization is enabled the weights are divided by
their Euclidean norm; the total dimensionality is the sum of the declared
dimensionalities. -/
noncomputable def mkCombined {Rng : Type}
    (dists : List (ℕ → ℕ → Rng → List (List ℝ) × Rng)) (dims : List ℕ)
    (weights0 : Option (List ℝ)) (normalize : Bool) : CombinedD Rng :=
  let w1 := weights0.getD (List.replicate dists.length 1)
  let w := if normalize then w1.map (fun x => x / normL w1) else w1
  ⟨dists, dims, w, dims.sum⟩

/-- Sample every sub-distribution at its own dimensionality with the shared
generator threaded through, scaling the i-th block by the i-th weight. -/
def sampleBlocks {Rng : Type} :
    List ((ℕ → ℕ → Rng → List (List ℝ) × Rng) × ℕ × ℝ) → ℕ → Rng →
      List (List (List ℝ)) × Rng
  | [], _, r => ([], r)
  | (dist, dim, w) :: rest, n, r =>
      let s := dist n dim r
      let restOut := sampleBlocks rest n s.2
      (scaleRows s.1 w :: restOut.1, restOut.2)

/-- Combined.sample: the assertion d == n_dimensions is modelled as an
Option result that is none exactly when the caller-requested dimensionality
(None by default) differs from the stored total; otherwise the scaled
blocks are concatenated along the feature axis. -/
noncomputable def CombinedD.sample {Rng : Type} (c : CombinedD Rng) (n : ℕ) (d : Option ℕ)
    (rng : Rng) : Option (List (List ℝ)) :=
  if d = some c.n_dimensions then
    some (hstackL (sampleBlocks (c.distributions.zip (c.dimensions.zip c.weights)) n rng).1)
  else none

/-! ### FunctionSpaceDistribution (basis-projected distribution) -/

/-- The FunctionSpaceDistribution: the wrapped FunctionSpace is represented
by its stored basis matrix, and the data source is either a base
distribution or a fixed data matrix. -/
structure FSDistL (Rng : Type) where
  fsBasis : List (List ℝ)
  data : (ℕ → Rng → List (List ℝ) × Rng) ⊕ List (List ℝ)

/-- FunctionSpaceDistribution.sample: draw n rows from the base distribution
when data is a Distribution, otherwise take the fixed matrix as is (note n
is not consulted in that branch), then right-multiply by the basis. -/
def FSDistL.sample {Rng : Type} (fd : FSDistL Rng) (n : ℕ) (d : Option ℕ) (rng : Rng) :
    List (List ℝ) :=
  match fd.data with
  | Sum.inl dist => matMulL (dist n rng).1 fd.fsBasis
  | Sum.inr dataM => matMulL dataM fd.fsBasis

/-- A concrete deterministic sub-distribution used in witnesses: returns an
n-by-d block of a constant value and leaves the generator unchanged. -/
def constSampler (v : ℝ) : ℕ → ℕ → Unit → List (List ℝ) × Unit :=
  fun n d _ => (List.replicate n (List.replicate d v), ())

/-! ### FunctionSpace.compute_basis, list level (dynamic numpy shapes)

The SVD factors S and V are inputs here: the svd routine of numpy is external library
code whose output is constrained, where a claim needs it, by the usual
orthogonality contract. V[:n_basis] is List.take, which clips to the
available rows exactly as numpy slicing does. -/

/-- Euclidean norm of one projection row, as np.linalg.norm(proj, axis=1)
applied to that row. -/
noncomputable def rowNormL (r : List ℝ) : ℝ := Real.sqrt ((r.map (fun x => x ^ 2)).sum)

/-- The scale stored by compute_basis: the squared mean of the Euclidean
norms of the rows of proj = data . V[:n_basis]^T, with np.mean as sum over
length. -/
noncomputable def computeScaleL (data V : List (List ℝ)) (nb : ℕ) : ℝ :=
  ((((matMulL data (transposeL (V.take nb))).map rowNormL).sum)
      / (((matMulL data (transposeL (V.take nb))).length : ℕ) : ℝ)) ^ 2

/-- The basis stored by compute_basis: V[:n_basis]^T divided entrywise by
sqrt(scale). -/
noncomputable def computeBasisL (data V : List (List ℝ)) (nb : ℕ) : List (List ℝ) :=
  (transposeL (V.take nb)).map (fun row => row.map (fun x =>
    x / Real.sqrt (computeScaleL data V nb)))

/-- The three artifacts stored jointly by compute_basis. -/
structure ArtifactsL where
  scale : ℝ
  basis : List (List ℝ)
  svals : List ℝ

/-- One run of compute_basis given the data matrix and the SVD outputs: the
scale, the normalized basis, and the full singular value vector S. -/
noncomputable def computeArtifactsL (data V : List (List ℝ)) (S : List ℝ) (nb : ℕ) :
    ArtifactsL :=
  ⟨computeScaleL data V nb, computeBasisL data V nb, S⟩

/-- Mean of a list of reals, following the wording of the spec. -/
noncomputable def listMean (l : List ℝ) : ℝ := l.sum / (l.length : ℝ)

/-- Scale as worded by the spec: the mean of the Euclidean magnitudes of the
unnormalized projection rows, squared. -/
noncomputable def specScaleL (data V : List (List ℝ)) (nb : ℕ) : ℝ :=
  (listMean ((matMulL data (transposeL (V.take nb))).map rowNormL)) ^ 2

/-- Basis as worded by the spec: the transposed top right singular vectors
scaled by the reciprocal square root of the scale. -/
noncomputable def specBasisL (data V : List (List ℝ)) (nb : ℕ) : List (List ℝ) :=
  (transposeL (V.take nb)).map (fun row => row.map (fun x =>
    x * (Real.sqrt (specScaleL data V nb))⁻¹))

/-! ### FunctionSpace linear algebra, typed matrix level

Here n_basis ≤ d, the intended regime of a reduced basis; the top rows of V
are selected with Fin.castLE. -/

/-- The top n_basis rows of the right singular vector matrix V. -/
def Vtop {d : ℕ} (V : Matrix (Fin d) (Fin d) ℝ) (nb : ℕ) (h : nb ≤ d) :
    Matrix (Fin nb) (Fin d) ℝ :=
  fun i j => V (Fin.castLE h i) j

/-- Euclidean norm of the i-th row of a matrix. -/
noncomputable def rowNorm {n d : ℕ} (M : Matrix (Fin n) (Fin d) ℝ) (i : Fin n) : ℝ :=
  Real.sqrt (∑ j, (M i j) ^ 2)

/-- The unnormalized projection proj = data . V[:n_basis]^T. -/
noncomputable def projData {n d : ℕ} (data : Matrix (Fin n) (Fin d) ℝ)
    (V : Matrix (Fin d) (Fin d) ℝ) (nb : ℕ) (h : nb ≤ d) : Matrix (Fin n) (Fin nb) ℝ :=
  data * (Vtop V nb h)ᵀ

/-- The stored scale: squared mean of the projection row norms. -/
noncomputable def scaleOf {n d : ℕ} (data : Matrix (Fin n) (Fin d) ℝ)
    (V : Matrix (Fin d) (Fin d) ℝ) (nb : ℕ) (h : nb ≤ d) : ℝ :=
  ((∑ i, rowNorm (projData data V nb h) i) / (n : ℝ)) ^ 2

/-- The stored basis: V[:n_basis]^T divided entrywise by sqrt(scale). -/
noncomputable def basisOf {n d : ℕ} (data : Matrix (Fin n) (Fin d) ℝ)
    (V : Matrix (Fin d) (Fin d) ℝ) (nb : ℕ) (h : nb ≤ d) : Matrix (Fin d) (Fin nb) ℝ :=
  fun i j => (Vtop V nb h)ᵀ i j / Real.sqrt (scaleOf data V nb h)

/-- FunctionSpace.project on a concrete point: pts . basis. -/
noncomputable def projectPt {d nb : ℕ} (basis : Matrix (Fin d) (Fin nb) ℝ)
    (pts : Fin d → ℝ) : Fin nb → ℝ :=
  Matrix.vecMul pts basis

/-- FunctionSpace.reconstruct on a coefficient vector: (x . basis^T) * scale. -/
noncomputable def reconstructPt {d nb : ℕ} (basis : Matrix (Fin d) (Fin nb) ℝ)
    (scale : ℝ) (x : Fin nb → ℝ) : Fin d → ℝ :=
  fun j => Matrix.vecMul x basisᵀ j * scale

/-- FunctionSpace.project applied to a whole matrix of points. -/
noncomputable def projectMat {m d nb : ℕ} (basis : Matrix (Fin d) (Fin nb) ℝ)
    (pts : Matrix (Fin m) (Fin d) ℝ) : Matrix (Fin m) (Fin nb) ℝ :=
  pts * basis

/-- FunctionSpace.reconstruct applied to a whole matrix of coefficients. -/
noncomputable def reconstructMat {m d nb : ℕ} (basis : Matrix (Fin d) (Fin nb) ℝ)
    (scale : ℝ) (x : Matrix (Fin m) (Fin nb) ℝ) : Matrix (Fin m) (Fin d) ℝ :=
  fun i j => (x * basisᵀ) i j * scale

/-- Frobenius reconstruction error of the round trip on the training data
for a given basis rank. -/
noncomputable def reconError {n d : ℕ} (data : Matrix (Fin n) (Fin d) ℝ)
    (V : Matrix (Fin d) (Fin d) ℝ) (nb : ℕ) (h : nb ≤ d) : ℝ :=
  Real.sqrt (∑ i, ∑ j, (data i j
    - reconstructMat (basisOf data V nb h) (scaleOf data V nb h)
        (projectMat (basisOf data V nb h) data) i j) ^ 2)

/-! ### FunctionSpace object: data source, seeded generator, lazy cache -/

/-- The space argument of FunctionSpace: either a Distribution, modelled as a
deterministic sampler of the requested row count and the generator state, or
a fixed data matrix. -/
inductive SpaceSrc (d : ℕ) where
  | dist (sampler : (n : ℕ) → ℕ → Matrix (Fin n) (Fin d) ℝ)
  | fixed (m : ℕ) (dataM : Matrix (Fin m) (Fin d) ℝ)

/-- Constructor arguments of a FunctionSpace: the space, the sample count,
and the seed of its private RandomState. The basis rank is the type index
nb. -/
structure FSpaceCfg (d nb : ℕ) where
  space : SpaceSrc d
  n_samples : ℕ
  seed : ℕ

/-- Row count of the data matrix compute_basis obtains from the space. -/
def srcRows {d : ℕ} : SpaceSrc d → ℕ → ℕ
  | SpaceSrc.dist _, ns => ns
  | SpaceSrc.fixed m _, _ => m

/-- The data matrix compute_basis obtains: drawn from the Distribution with
the own seeded generator of the instance, or the fixed matrix as supplied. -/
def fsDataAux {d : ℕ} (s : SpaceSrc d) (ns seed : ℕ) :
    Matrix (Fin (srcRows s ns)) (Fin d) ℝ :=
  match s with
  | SpaceSrc.dist f => f ns seed
  | SpaceSrc.fixed _ dataM => dataM

/-- The three artifacts computed jointly by compute_basis. -/
structure BasisArtifacts (d nb : ℕ) where
  scale : ℝ
  basis : Matrix (Fin d) (Fin nb) ℝ
  svals : List ℝ

/-- One run of compute_basis at the typed level, given the data matrix and
the SVD outputs of the external numpy routine. -/
noncomputable def computeArtifacts {n d : ℕ} (data : Matrix (Fin n) (Fin d) ℝ)
    (V : Matrix (Fin d) (Fin d) ℝ) (S : List ℝ) (nb : ℕ) (h : nb ≤ d) :
    BasisArtifacts d nb :=
  ⟨scaleOf data V nb h, basisOf data V nb h, S⟩

/-- compute_basis for a FunctionSpace configuration: obtain the data from
the space (consuming only the own seeded generator of the instance), run the SVD
oracle, and derive scale, basis and S. -/
noncomputable def fsComputeArtifacts {d nb : ℕ}
    (svd : (n : ℕ) → Matrix (Fin n) (Fin d) ℝ → List ℝ × Matrix (Fin d) (Fin d) ℝ)
    (cfg : FSpaceCfg d nb) (h : nb ≤ d) : BasisArtifacts d nb :=
  computeArtifacts (fsDataAux cfg.space cfg.n_samples cfg.seed)
    (svd (srcRows cfg.space cfg.n_samples) (fsDataAux cfg.space cfg.n_samples cfg.seed)).2
    (svd (srcRows cfg.space cfg.n_samples) (fsDataAux cfg.space cfg.n_samples cfg.seed)).1
    nb h

/-- The mutable cache of a FunctionSpace instance: the three None-initialized
slots and an instrumentation counter of compute_basis runs. -/
structure FSState (d nb : ℕ) where
  basisF : Option (Matrix (Fin d) (Fin nb) ℝ)
  scaleF : Option ℝ
  svalsF : Option (List ℝ)
  computeCount : ℕ

/-- The state right after FunctionSpace.init: nothing computed yet. -/
def initFS (d nb : ℕ) : FSState d nb := ⟨none, none, none, 0⟩

/-- One run of compute_basis on the cache: stores all three artifacts
jointly and bumps the run counter. -/
noncomputable def doCompute {d nb : ℕ}
    (svd : (n : ℕ) → Matrix (Fin n) (Fin d) ℝ → List ℝ × Matrix (Fin d) (Fin d) ℝ)
    (cfg : FSpaceCfg d nb) (h : nb ≤ d) (st : FSState d nb) : FSState d nb :=
  ⟨some (fsComputeArtifacts svd cfg h).basis, some (fsComputeArtifacts svd cfg h).scale,
    some (fsComputeArtifacts svd cfg h).svals, st.computeCount + 1⟩

/-- The basis property accessor: compute on first access, then cached. -/
noncomputable def accBasis {d nb : ℕ}
    (svd : (n : ℕ) → Matrix (Fin n) (Fin d) ℝ → List ℝ × Matrix (Fin d) (Fin d) ℝ)
    (cfg : FSpaceCfg d nb) (h : nb ≤ d) (st : FSState d nb) :
    Matrix (Fin d) (Fin nb) ℝ × FSState d nb :=
  match st.basisF with
  | some b => (b, st)
  | none => ((doCompute svd cfg h st).basisF.getD 0, doCompute svd cfg h st)

/-- The scale property accessor: compute on first access, then cached. -/
noncomputable def accScale {d nb : ℕ}
    (svd : (n : ℕ) → Matrix (Fin n) (Fin d) ℝ → List ℝ × Matrix (Fin d) (Fin d) ℝ)
    (cfg : FSpaceCfg d nb) (h : nb ≤ d) (st : FSState d nb) : ℝ × FSState d nb :=
  match st.scaleF with
  | some s => (s, st)
  | none => ((doCompute svd cfg h st).scaleF.getD 0, doCompute svd cfg h st)

/-- The S property accessor: compute on first access, then cached. -/
noncomputable def accS {d nb : ℕ}
    (svd : (n : ℕ) → Matrix (Fin n) (Fin d) ℝ → List ℝ × Matrix (Fin d) (Fin d) ℝ)
    (cfg : FSpaceCfg d nb) (h : nb ≤ d) (st : FSState d nb) : List ℝ × FSState d nb :=
  match st.svalsF with
  | some s => (s, st)
  | none => ((doCompute svd cfg h st).svalsF.getD [], doCompute svd cfg h st)

/-- Cache states reachable from a fresh FunctionSpace instance through the
three property accessors. -/
inductive ReachState {d nb : ℕ}
    (svd : (n : ℕ) → Matrix (Fin n) (Fin d) ℝ → List ℝ × Matrix (Fin d) (Fin d) ℝ)
    (cfg : FSpaceCfg d nb) (h : nb ≤ d) : FSState d nb → Prop where
  | base : ReachState svd cfg h (initFS d nb)
  | stepBasis {st : FSState d nb} : ReachState svd cfg h st →
      ReachState svd cfg h (accBasis svd cfg h st).2
  | stepScale {st : FSState d nb} : ReachState svd cfg h st →
      ReachState svd cfg h (accScale svd cfg h st).2
  | stepS {st : FSState d nb} : ReachState svd cfg h st →
      ReachState svd cfg h (accS svd cfg h st).2

/-- The joint-cache invariant: the three slots are filled together (never a
partial subset) and compute_basis has run exactly once when they are filled,
never otherwise. -/
def jointInv {d nb : ℕ} (st : FSState d nb) : Prop :=
  (st.basisF.isSome ↔ st.scaleF.isSome) ∧ (st.basisF.isSome ↔ st.svalsF.isSome)
  ∧ st.computeCount = (if st.basisF.isSome then 1 else 0)

theorem length_matMulL (a b : List (List ℝ)) : (matMulL a b).length = a.length := by
  simp [matMulL]

theorem length_row_matMulL (a b : List (List ℝ)) (r : List ℝ)
    (hr : r ∈ matMulL a b) : r.length = colCount b := by
  simp only [matMulL, List.mem_map] at hr
  obtain ⟨row, _, hrow⟩ := hr
  simp [← hrow, transposeL]

theorem vecAdd_self (a : List ℝ) : vecAdd a a = a.map (fun x => 2 * x) := by
  induction a with
  | nil => rfl
  | cons x xs ih =>
      simp only [vecAdd, List.zipWith_cons_cons, List.map_cons, List.cons.injEq] at *
      exact ⟨by ring, ih⟩

theorem vecSum_pair (a b : List ℝ) : vecSum [a, b] = vecAdd a b := rfl

theorem innerLoop_eq (f : List ℝ → List ℝ) (cols : List (List ℝ)) :
    ∀ (si idx : ℕ),
      innerLoop f cols si idx
        = ((List.range si).map (fun j => f (argsAt cols (idx + j))), idx + si) := by
  intro si
  induction si with
  | zero => intro idx; simp [innerLoop]
  | succ k ih =>
      intro idx
      simp only [innerLoop, ih (idx + 1), Prod.mk.injEq]
      refine ⟨?_, by omega⟩
      rw [List.range_succ_eq_map, List.map_cons, List.map_map]
      have harg : ((fun j => f (argsAt cols (idx + j))) ∘ Nat.succ)
          = (fun j => f (argsAt cols (idx + 1 + j))) := by
        funext j
        have hidx : idx + Nat.succ j = idx + 1 + j := by omega
        simp only [Function.comp_apply, hidx]
      rw [harg]
      simp

theorem outerLoop_eq (f : List ℝ → List ℝ) (cols : List (List ℝ)) (si : ℕ) :
    ∀ (n idx : ℕ),
      outerLoop f cols si n idx
        = (List.range n).map (fun i =>
            vecSum ((List.range si).map (fun j => f (argsAt cols (idx + i * si + j))))) := by
  intro n
  induction n with
  | zero => intro idx; simp [outerLoop]
  | succ k ih =>
      intro idx
      simp only [outerLoop, innerLoop_eq, ih (idx + si)]
      rw [List.range_succ_eq_map, List.map_cons, List.map_map]
      have hhead : (fun j => f (argsAt cols (idx + 0 * si + j)))
          = (fun j => f (argsAt cols (idx + j))) := by
        funext j
        have hidx : idx + 0 * si + j = idx + j := by omega
        rw [hidx]
      have htail : ((fun i =>
            vecSum ((List.range si).map (fun j => f (argsAt cols (idx + i * si + j))))) ∘ Nat.succ)
          = (fun i =>
            vecSum ((List.range si).map (fun j => f (argsAt cols (idx + si + i * si + j))))) := by
        funext i
        simp only [Function.comp_apply]
        congr 1
        apply List.map_congr_left
        intro j _
        have hidx : idx + Nat.succ i * si + j = idx + si + i * si + j := by
          have : Nat.succ i * si = i * si + si := Nat.succ_mul i si
          omega
        rw [hidx]
      rw [hhead, htail]

/-- C6: Function.sample draws n * superimpose parameter tuples (sampling
n * superimpose values per Distribution-valued parameter and broadcasting
fixed scalars), applies the user function to the tuple at each draw index,
sums each consecutive group of superimpose outputs into one row, and stacks
the n sums; with superimpose = 2 and a user function whose output does not
depend on the sampled parameters, every row is exactly 2 times the
single-draw output. -/
theorem c6_function_sample_contract {Rng : Type} (fd : FunctionDist Rng) (n : ℕ) (rng : Rng)
    (out : List ℝ) (hsi : 1 ≤ fd.superimpose) :
    (fd.sample n rng).length = n
    ∧ fd.sample n rng
        = (List.range n).map (fun i =>
            vecSum ((List.range fd.superimpose).map (fun j =>
              fd.function (argsAt (sampleKwargs fd.params (n * fd.superimpose) rng).1
                (i * fd.superimpose + j)))))
    ∧ (fd.superimpose = 2 → (∀ args, fd.function args = out) →
        fd.sample n rng = List.replicate n (out.map (fun x => 2 * x))) := by
  have hmain : fd.sample n rng
      = (List.range n).map (fun i =>
          vecSum ((List.range fd.superimpose).map (fun j =>
            fd.function (argsAt (sampleKwargs fd.params (n * fd.superimpose) rng).1
              (i * fd.superimpose + j))))) := by
    show outerLoop fd.function (sampleKwargs fd.params (n * fd.superimpose) rng).1
        fd.superimpose n 0 = _
    rw [outerLoop_eq]
    simp only [Nat.zero_add]
  refine ⟨by rw [hmain]; simp, hmain, ?_⟩
  intro h2 hconst
  rw [hmain]
  simp only [hconst, h2]
  have hpair : (List.range 2).map (fun _ : ℕ => out) = [out, out] := rfl
  rw [hpair]
  rw [vecSum_pair, vecAdd_self]
  simp

/-- Witness for C6 at a concrete Function distribution: constant user
function returning the row 3, superimpose 2, no parameter distributions,
one sample. -/
theorem c6_function_sample_contract_witness :
    (FunctionDist.mk (fun _ => [(3 : ℝ)]) 2 [] : FunctionDist Unit).sample 1 ()
      = List.replicate 1 ([(3 : ℝ)].map (fun x => 2 * x)) :=
  (c6_function_sample_contract (FunctionDist.mk (fun _ => [(3 : ℝ)]) 2 []) 1 () [(3 : ℝ)]
    (by norm_num)).2.2 rfl (fun _ => rfl)

theorem scaleRows_length (m : List (List ℝ)) (w : ℝ) :
    (scaleRows m w).length = m.length := by
  simp [scaleRows]

theorem scaleRows_row_length (m : List (List ℝ)) (w : ℝ) {row : List ℝ}
    (h : row ∈ scaleRows m w) : ∃ r ∈ m, row.length = r.length := by
  simp only [scaleRows, List.mem_map] at h
  obtain ⟨r, hr, hrow⟩ := h
  exact ⟨r, hr, by simp [← hrow]⟩

theorem hstackL_shape (n : ℕ) :
    ∀ (blocks : List (List (List ℝ))) (widths : List ℕ),
      blocks ≠ [] → blocks.length = widths.length →
      (∀ q ∈ blocks.zip widths, q.1.length = n ∧ ∀ row ∈ q.1, row.length = q.2) →
      (hstackL blocks).length = n ∧ ∀ row ∈ hstackL blocks, row.length = widths.sum := by
  intro blocks
  induction blocks with
  | nil => intro widths h; exact absurd rfl h
  | cons b bs ih =>
      intro widths _ hlen hq
      cases widths with
      | nil => simp at hlen
      | cons w ws =>
          cases bs with
          | nil =>
              cases ws with
              | cons w2 ws2 => simp at hlen
              | nil =>
                  have hb := hq (b, w) (by simp)
                  refine ⟨by simpa [hstackL] using hb.1, ?_⟩
                  intro row hrow
                  simp only [hstackL] at hrow
                  simpa using hb.2 row hrow
          | cons b2 bs2 =>
              cases ws with
              | nil => simp at hlen
              | cons w2 ws2 =>
                  have hb := hq (b, w) (by simp)
                  have hrest := ih (w2 :: ws2) (by simp) (by simpa using hlen)
                    (fun q hqmem => hq q (List.mem_cons_of_mem _ hqmem))
                  have hstep : hstackL (b :: b2 :: bs2)
                      = List.zipWith (fun r s => r ++ s) b (hstackL (b2 :: bs2)) := rfl
                  constructor
                  · rw [hstep, List.length_zipWith, hb.1, hrest.1]
                    exact Nat.min_self n
                  · intro row hrow
                    rw [hstep] at hrow
                    rw [List.mem_iff_getElem] at hrow
                    obtain ⟨i, hi, hrow_eq⟩ := hrow
                    rw [List.getElem_zipWith] at hrow_eq
                    have hib : i < b.length := by
                      rw [List.length_zipWith] at hi; omega
                    have hir : i < (hstackL (b2 :: bs2)).length := by
                      rw [List.length_zipWith] at hi; omega
                    have h1 : b[i].length = w := hb.2 _ (List.getElem_mem hib)
                    have h2 : (hstackL (b2 :: bs2))[i].length = (w2 :: ws2).sum :=
                      hrest.2 _ (List.getElem_mem hir)
                    rw [← hrow_eq]
                    simp [h1, h2]

theorem sampleBlocks_shape {Rng : Type} :
    ∀ (fs : List (ℕ → ℕ → Rng → List (List ℝ) × Rng)) (ds : List ℕ) (ws : List ℝ)
      (n : ℕ) (rng : Rng),
      fs.length = ds.length → ds.length ≤ ws.length →
      (∀ p ∈ fs.zip ds, ∀ r : Rng,
        (p.1 n p.2 r).1.length = n ∧ ∀ row ∈ (p.1 n p.2 r).1, row.length = p.2) →
      (sampleBlocks (fs.zip (ds.zip ws)) n rng).1.length = fs.length
      ∧ ∀ q ∈ ((sampleBlocks (fs.zip (ds.zip ws)) n rng).1).zip ds,
          q.1.length = n ∧ ∀ row ∈ q.1, row.length = q.2 := by
  intro fs
  induction fs with
  | nil => intro ds ws n rng _ _ _; simp [sampleBlocks]
  | cons f fs2 ih =>
      intro ds ws n rng hlen hws hcon
      cases ds with
      | nil => simp at hlen
      | cons d ds2 =>
          cases ws with
          | nil => simp at hws
          | cons w ws2 =>
              have hhead := hcon (f, d) (by simp) rng
              have htail := ih ds2 ws2 n (f n d rng).2 (by simpa using hlen)
                (by simpa using hws)
                (fun p hp r => hcon p (List.mem_cons_of_mem _ hp) r)
              simp only [List.zip_cons_cons, sampleBlocks]
              refine ⟨by simpa using htail.1, ?_⟩
              intro q hq
              simp only [List.zip_cons_cons, List.mem_cons] at hq
              rcases hq with hq | hq
              · subst hq
                refine ⟨by simpa [scaleRows_length] using hhead.1, ?_⟩
                intro row hrow
                obtain ⟨r, hr, hlen_eq⟩ := scaleRows_row_length _ _ hrow
                rw [hlen_eq]
                exact hhead.2 r hr
              · exact htail.2 q hq

/-- C5: Combined.sample fails (assertion) exactly when the requested
dimensionality differs from the sum of the declared dimensionalities (in
particular when d is omitted, defaulting to None); the default weights are
all ones normalized to unit Euclidean norm, so each equals 1/sqrt(k); and
on success the result is the n-by-sum(dimensions) concatenation of the
per-distribution samples scaled by their weights. -/
theorem c5_combined_sample {Rng : Type}
    (dists : List (ℕ → ℕ → Rng → List (List ℝ) × Rng)) (dims : List ℕ)
    (n : ℕ) (rng : Rng)
    (hk : 1 ≤ dists.length) (hlen : dims.length = dists.length)
    (hcontract : ∀ p ∈ dists.zip dims, ∀ r : Rng,
      (p.1 n p.2 r).1.length = n ∧ ∀ row ∈ (p.1 n p.2 r).1, row.length = p.2) :
    ((mkCombined dists dims none true).weights
        = List.replicate dists.length (1 / Real.sqrt (dists.length : ℝ)))
    ∧ (∀ d : Option ℕ,
        ((mkCombined dists dims none true).sample n d rng).isSome ↔ d = some dims.sum)
    ∧ (∀ m, (mkCombined dists dims none true).sample n (some dims.sum) rng = some m →
        m.length = n ∧ ∀ row ∈ m, row.length = dims.sum) := by
  have hw : (mkCombined dists dims none true).weights
      = List.replicate dists.length (1 / Real.sqrt (dists.length : ℝ)) := by
    simp only [mkCombined, Option.getD_none, if_true]
    have hnorm : normL (List.replicate dists.length (1 : ℝ))
        = Real.sqrt (dists.length : ℝ) := by
      simp [normL, List.sum_replicate, nsmul_eq_mul]
    rw [hnorm, List.map_replicate]
  refine ⟨hw, ?_, ?_⟩
  · intro d
    by_cases hd : d = some dims.sum
    · simp [CombinedD.sample, mkCombined, hd]
    · simp [CombinedD.sample, mkCombined, hd]
  · intro m hm
    have hwlen : (List.replicate dists.length (1 / Real.sqrt (dists.length : ℝ))).length
        = dists.length := List.length_replicate _ _
    have hblocks := sampleBlocks_shape dists dims
      (List.replicate dists.length (1 / Real.sqrt (dists.length : ℝ))) n rng
      hlen.symm (by rw [hwlen, hlen]) hcontract
    have hne : (sampleBlocks (dists.zip (dims.zip
        (List.replicate dists.length (1 / Real.sqrt (dists.length : ℝ))))) n rng).1 ≠ [] := by
      intro hempty
      have hlen0 := hblocks.1
      rw [hempty] at hlen0
      simp only [List.length_nil] at hlen0
      omega
    have hshape := hstackL_shape n _ dims hne (by rw [hblocks.1, hlen]) hblocks.2
    have hsample : (mkCombined dists dims none true).sample n (some dims.sum) rng
        = some (hstackL (sampleBlocks (dists.zip (dims.zip
            (List.replicate dists.length (1 / Real.sqrt (dists.length : ℝ))))) n rng).1) := by
      have hnd : (mkCombined dists dims none true).n_dimensions = dims.sum := rfl
      have hdists : (mkCombined dists dims none true).distributions = dists := rfl
      have hdims : (mkCombined dists dims none true).dimensions = dims := rfl
      simp [CombinedD.sample, hnd, hdists, hdims, hw]
    rw [hsample, Option.some.injEq] at hm
    subst hm
    exact hshape

/-- Witness for C5 at two concrete sub-distributions of dimensionalities 2
and 3: sampling with d = 5 succeeds, sampling with d omitted (None) fails,
and the default weights are both 1/sqrt(2). -/
theorem c5_combined_sample_witness :
    ((mkCombined [constSampler 0, constSampler 0] [2, 3] none true).sample 1 (some 5) ()).isSome
    ∧ ¬ ((mkCombined [constSampler 0, constSampler 0] [2, 3] none true).sample 1 none ()).isSome
    ∧ (mkCombined [constSampler 0, constSampler 0] [2, 3] none true).weights
        = List.replicate 2 (1 / Real.sqrt 2) := by
  have hcon : ∀ p ∈ ([constSampler 0, constSampler 0]).zip [2, 3], ∀ r : Unit,
      (p.1 1 p.2 r).1.length = 1 ∧ ∀ row ∈ (p.1 1 p.2 r).1, row.length = p.2 := by
    intro p hp r
    simp only [List.zip_cons_cons, List.zip_nil_right, List.mem_cons,
      List.not_mem_nil, or_false] at hp
    rcases hp with hp | hp <;> subst hp <;>
      exact ⟨by simp [constSampler], fun row hrow => by
        simp only [constSampler, List.mem_replicate] at hrow
        simp [hrow.2]⟩
  have h := c5_combined_sample [constSampler 0, constSampler 0] [2, 3] 1 ()
    (by norm_num) (by norm_num) hcon
  refine ⟨(h.2.1 (some 5)).mpr (by norm_num), ?_, by simpa using h.1⟩
  intro hs
  have hnone := (h.2.1 none).mp hs
  simp at hnone

theorem colCount_of_rows (basis : List (List ℝ)) (nb : ℕ)
    (hne : 1 ≤ basis.length) (hr : ∀ r ∈ basis, r.length = nb) :
    colCount basis = nb := by
  cases basis with
  | nil => simp at hne
  | cons b bs => exact hr b (List.mem_cons_self b bs)

/-- C4 (amended): FunctionSpaceDistribution.sample right-multiplies the raw
rows by the stored basis; when data is a Distribution it draws exactly n raw
rows and returns n coefficient vectors of length n_basis, but when data is a
fixed matrix it uses all rows of that matrix regardless of n, returning one
coefficient vector per raw row. -/
theorem c4_fsdist_sample {Rng : Type} (fd : FSDistL Rng) (n : ℕ) (d : Option ℕ) (rng : Rng)
    (dd nb : ℕ) (hb : fd.fsBasis.length = dd) (hbr : ∀ r ∈ fd.fsBasis, r.length = nb)
    (hd : 1 ≤ dd) :
    (∀ dist, fd.data = Sum.inl dist → (dist n rng).1.length = n →
        fd.sample n d rng = matMulL (dist n rng).1 fd.fsBasis
        ∧ (fd.sample n d rng).length = n
        ∧ ∀ row ∈ fd.sample n d rng, row.length = nb)
    ∧ (∀ dataM, fd.data = Sum.inr dataM →
        fd.sample n d rng = matMulL dataM fd.fsBasis
        ∧ (fd.sample n d rng).length = dataM.length
        ∧ ∀ row ∈ fd.sample n d rng, row.length = nb) := by
  have hcol : colCount fd.fsBasis = nb :=
    colCount_of_rows fd.fsBasis nb (hb ▸ hd) hbr
  constructor
  · intro dist hdata hn
    have hs : fd.sample n d rng = matMulL (dist n rng).1 fd.fsBasis := by
      simp [FSDistL.sample, hdata]
    refine ⟨hs, ?_, ?_⟩
    · rw [hs, length_matMulL, hn]
    · intro row hrow
      rw [hs] at hrow
      rw [length_row_matMulL _ _ _ hrow, hcol]
  · intro dataM hdata
    have hs : fd.sample n d rng = matMulL dataM fd.fsBasis := by
      simp [FSDistL.sample, hdata]
    refine ⟨hs, ?_, ?_⟩
    · rw [hs, length_matMulL]
    · intro row hrow
      rw [hs] at hrow
      rw [length_row_matMulL _ _ _ hrow, hcol]

/-- Counterexample for C4 as stated: a FunctionSpaceDistribution over a fixed
2-row data matrix asked for n = 1 samples returns 2 coefficient rows, not 1. -/
theorem c4_fixed_rows_counterexample :
    ((FSDistL.mk [[(1 : ℝ)]] (Sum.inr [[(1 : ℝ)], [(2 : ℝ)]]) : FSDistL Unit).sample
        1 none ()).length = 2
    ∧ (2 : ℕ) ≠ 1 := by
  exact ⟨rfl, by norm_num⟩

/-- Witness for C4 at a concrete instance: fixed 2-row data, basis of shape
1-by-1; the sample has one coefficient row of length 1 per data row. -/
theorem c4_fsdist_sample_witness :
    ((FSDistL.mk [[(1 : ℝ)]] (Sum.inr [[(1 : ℝ)], [(2 : ℝ)]]) : FSDistL Unit).sample 1 none ())
        = matMulL [[(1 : ℝ)], [(2 : ℝ)]] [[(1 : ℝ)]]
    ∧ ((FSDistL.mk [[(1 : ℝ)]] (Sum.inr [[(1 : ℝ)], [(2 : ℝ)]]) : FSDistL Unit).sample
        1 none ()).length = [[(1 : ℝ)], [(2 : ℝ)]].length :=
  have h := (c4_fsdist_sample
    (FSDistL.mk [[(1 : ℝ)]] (Sum.inr [[(1 : ℝ)], [(2 : ℝ)]]) : FSDistL Unit) 1 none () 1 1
    rfl (by intro r hr; simp at hr; simp [hr]) (by norm_num)).2
    [[(1 : ℝ)], [(2 : ℝ)]] rfl
  ⟨h.1, h.2.1⟩

theorem length_transposeL (m : List (List ℝ)) : (transposeL m).length = colCount m := by
  simp [transposeL]

theorem row_transposeL {m : List (List ℝ)} {row : List ℝ} (h : row ∈ transposeL m) :
    row.length = m.length := by
  simp only [transposeL, List.mem_map, List.mem_range] at h
  obtain ⟨j, _, hrow⟩ := h
  simp [← hrow]

theorem colCount_take_cons (v : List ℝ) (vs : List (List ℝ)) (k : ℕ) :
    colCount ((v :: vs).take (k + 1)) = v.length := by
  simp [colCount, List.take_cons]

/-- C1 (amended): one run of compute_basis stores the scale equal to the
squared mean projection magnitude worded by the spec, the basis equal to the
normalized transposed top right singular vectors, and the full singular
value vector S; the stored basis has d rows of length min(n_basis, d) each
(numpy slicing clips V[:n_basis] to the d available rows, so the column
count is n_basis only when n_basis ≤ d). -/
theorem c1_compute_basis_formulas (data V : List (List ℝ)) (S : List ℝ) (nb d : ℕ)
    (hV : V.length = d) (hVr : ∀ r ∈ V, r.length = d) (hd : 1 ≤ d) (hnb : 1 ≤ nb) :
    (computeArtifactsL data V S nb).scale = specScaleL data V nb
    ∧ (computeArtifactsL data V S nb).basis = specBasisL data V nb
    ∧ (computeArtifactsL data V S nb).svals = S
    ∧ (computeArtifactsL data V S nb).basis.length = d
    ∧ ∀ r ∈ (computeArtifactsL data V S nb).basis, r.length = min nb d := by
  have hscale : computeScaleL data V nb = specScaleL data V nb := by
    simp [computeScaleL, specScaleL, listMean, List.length_map]
  refine ⟨hscale, ?_, rfl, ?_, ?_⟩
  · simp only [computeArtifactsL, computeBasisL, specBasisL, hscale, div_eq_mul_inv]
  · cases V with
    | nil => simp at hV; omega
    | cons v vs =>
        cases nb with
        | zero => omega
        | succ k =>
            have hv : v.length = d := hVr v (List.mem_cons_self v vs)
            simp [computeArtifactsL, computeBasisL, length_transposeL,
              colCount, hv]
  · intro r hr
    simp only [computeArtifactsL, computeBasisL, List.mem_map] at hr
    obtain ⟨row, hrow, hr_eq⟩ := hr
    rw [← hr_eq, List.length_map, row_transposeL hrow, List.length_take, hV]

/-- Counterexample for C1 as stated: with d = 1 and n_basis = 2 the stored
basis is 1-by-1 (numpy slicing clips V[:2] to the single available row),
not the claimed d-by-n_basis = 1-by-2. -/
theorem c1_shape_counterexample :
    (computeBasisL [[(1 : ℝ)]] [[(1 : ℝ)]] 2).map List.length = [1]
    ∧ ([1] : List ℕ) ≠ [2] := by
  refine ⟨rfl, by simp⟩

/-- Witness for C1 at a concrete one-dimensional instance. -/
theorem c1_compute_basis_formulas_witness :
    (computeArtifactsL [[(1 : ℝ)]] [[(1 : ℝ)]] [(1 : ℝ)] 1).scale
        = specScaleL [[(1 : ℝ)]] [[(1 : ℝ)]] 1
    ∧ (computeArtifactsL [[(1 : ℝ)]] [[(1 : ℝ)]] [(1 : ℝ)] 1).svals = [(1 : ℝ)]
    ∧ (computeArtifactsL [[(1 : ℝ)]] [[(1 : ℝ)]] [(1 : ℝ)] 1).basis.length = 1 :=
  have h := c1_compute_basis_formulas [[(1 : ℝ)]] [[(1 : ℝ)]] [(1 : ℝ)] 1 1
    rfl (by intro r hr; simp at hr; simp [hr]) le_rfl le_rfl
  ⟨h.1, h.2.2.1, h.2.2.2.1⟩

theorem scaleOf_one_one :
    scaleOf (1 : Matrix (Fin 1) (Fin 1) ℝ) 1 1 le_rfl = 1 := by
  simp [scaleOf, projData, rowNorm, Vtop, Matrix.mul_apply, Matrix.one_apply,
    Fin.sum_univ_one]

theorem scaleOf_zero_one :
    scaleOf (0 : Matrix (Fin 1) (Fin 1) ℝ) 1 1 le_rfl = 0 := by
  simp [scaleOf, projData, rowNorm, Matrix.zero_mul]

theorem basisOf_zero_one :
    basisOf (0 : Matrix (Fin 1) (Fin 1) ℝ) 1 1 le_rfl = 0 := by
  funext i j
  simp [basisOf, scaleOf_zero_one, Real.sqrt_zero, div_zero]

/-- C3 evaluation at the failing input: for an all-zero data matrix the
stored scale is 0, so compute_basis divides the basis entries by sqrt(0) = 0
with no guard; under real-division-by-zero semantics the stored basis
degenerates to the zero matrix, while numpy emits inf/nan entries with only
a runtime warning. -/
theorem c3_zero_data_unguarded_division :
    scaleOf (0 : Matrix (Fin 1) (Fin 1) ℝ) 1 1 le_rfl = 0
    ∧ Real.sqrt (scaleOf (0 : Matrix (Fin 1) (Fin 1) ℝ) 1 1 le_rfl) = 0
    ∧ basisOf (0 : Matrix (Fin 1) (Fin 1) ℝ) 1 1 le_rfl = 0 :=
  ⟨scaleOf_zero_one, by rw [scaleOf_zero_one, Real.sqrt_zero], basisOf_zero_one⟩

theorem basisOf_eq_smul {n d : ℕ} (data : Matrix (Fin n) (Fin d) ℝ)
    (V : Matrix (Fin d) (Fin d) ℝ) (nb : ℕ) (h : nb ≤ d) :
    basisOf data V nb h
      = (Real.sqrt (scaleOf data V nb h))⁻¹ • (Vtop V nb h)ᵀ := by
  funext i j
  simp [basisOf, Matrix.smul_apply, div_eq_mul_inv, mul_comm]

theorem vtop_orthonormal_rows {d : ℕ} (V : Matrix (Fin d) (Fin d) ℝ) (nb : ℕ)
    (h : nb ≤ d) (hV : V * Vᵀ = 1) :
    Vtop V nb h * (Vtop V nb h)ᵀ = 1 := by
  ext i j
  have hentry : (V * Vᵀ) (Fin.castLE h i) (Fin.castLE h j)
      = (1 : Matrix (Fin d) (Fin d) ℝ) (Fin.castLE h i) (Fin.castLE h j) := by
    rw [hV]
  simp only [Matrix.mul_apply, Matrix.transpose_apply, Matrix.one_apply,
    Fin.castLE_inj] at hentry ⊢
  simpa [Vtop] using hentry

theorem reconstructMat_smul {m d nb : ℕ} (B : Matrix (Fin d) (Fin nb) ℝ) (s : ℝ)
    (Y : Matrix (Fin m) (Fin nb) ℝ) :
    reconstructMat B s Y = s • (Y * Bᵀ) := by
  funext i j
  simp [reconstructMat, Matrix.smul_apply, mul_comm]

theorem scale_mul_invsqrt_sq {s : ℝ} (hs : 0 < s) :
    s * ((Real.sqrt s)⁻¹ * (Real.sqrt s)⁻¹) = 1 := by
  rw [← mul_inv, Real.mul_self_sqrt (le_of_lt hs)]
  exact mul_inv_cancel₀ (ne_of_gt hs)

theorem recon_project_cancel {m n d nb : ℕ} (data : Matrix (Fin n) (Fin d) ℝ)
    (V : Matrix (Fin d) (Fin d) ℝ) (h : nb ≤ d)
    (hs : 0 < scaleOf data V nb h) (X : Matrix (Fin m) (Fin d) ℝ) :
    reconstructMat (basisOf data V nb h) (scaleOf data V nb h)
        (projectMat (basisOf data V nb h) X)
      = X * (Vtop V nb h)ᵀ * Vtop V nb h := by
  rw [reconstructMat_smul, basisOf_eq_smul]
  simp only [projectMat]
  simp only [Matrix.transpose_smul, Matrix.transpose_transpose, Matrix.mul_smul,
    Matrix.smul_mul, smul_smul]
  rw [scale_mul_invsqrt_sq hs, one_smul]

theorem vecMul_matrix_smul {m k : ℕ} (v : Fin m → ℝ) (a : ℝ)
    (M : Matrix (Fin m) (Fin k) ℝ) :
    Matrix.vecMul v (a • M) = a • Matrix.vecMul v M := by
  ext j
  simp only [Matrix.vecMul, Matrix.dotProduct, Matrix.smul_apply, Pi.smul_apply,
    smul_eq_mul, Finset.mul_sum]
  exact Finset.sum_congr rfl (fun i _ => by ring)

/-- C2 (amended): when the data matrix has rank at most n_basis, the point
lies exactly in the span of the top n_basis right singular vectors, and the
stored scale is positive (which fails only for degenerate all-zero data,
where the division by sqrt(0) spoils the basis), project followed by
reconstruct returns the point exactly. -/
theorem c2_round_trip_fixed_point {n d nb : ℕ} (data : Matrix (Fin n) (Fin d) ℝ)
    (V : Matrix (Fin d) (Fin d) ℝ) (h : nb ≤ d) (pts : Fin d → ℝ)
    (hV : V * Vᵀ = 1) (hrank : data.rank ≤ nb)
    (hspan : ∃ coef : Fin nb → ℝ, pts = Matrix.vecMul coef (Vtop V nb h))
    (hs : 0 < scaleOf data V nb h) :
    reconstructPt (basisOf data V nb h) (scaleOf data V nb h)
        (projectPt (basisOf data V nb h) pts) = pts := by
  obtain ⟨coef, rfl⟩ := hspan
  have hW := vtop_orthonormal_rows V nb h hV
  have hrec : reconstructPt (basisOf data V nb h) (scaleOf data V nb h)
        (projectPt (basisOf data V nb h) (Matrix.vecMul coef (Vtop V nb h)))
      = scaleOf data V nb h
          • Matrix.vecMul (projectPt (basisOf data V nb h)
              (Matrix.vecMul coef (Vtop V nb h))) (basisOf data V nb h)ᵀ := by
    funext j
    simp [reconstructPt, Pi.smul_apply, mul_comm]
  rw [hrec]
  simp only [projectPt, basisOf_eq_smul, Matrix.transpose_smul,
    Matrix.transpose_transpose]
  simp only [vecMul_matrix_smul, Matrix.vecMul_smul, smul_smul]
  rw [scale_mul_invsqrt_sq hs, one_smul]
  rw [Matrix.vecMul_vecMul, Matrix.vecMul_vecMul, ← Matrix.mul_assoc, hW,
    Matrix.one_mul]

/-- Counterexample for C2 as stated: with an all-zero 1-by-1 data matrix
(rank 0, at most n_basis = 1) and the point 1 lying in the span of the top
right singular vector, the round trip returns 0, not the point: the zero
scale makes the basis degenerate. -/
theorem c2_round_trip_counterexample :
    (1 : Matrix (Fin 1) (Fin 1) ℝ) * (1 : Matrix (Fin 1) (Fin 1) ℝ)ᵀ = 1
    ∧ (0 : Matrix (Fin 1) (Fin 1) ℝ).rank ≤ 1
    ∧ (∃ coef : Fin 1 → ℝ,
        ![(1 : ℝ)] = Matrix.vecMul coef (Vtop (1 : Matrix (Fin 1) (Fin 1) ℝ) 1 le_rfl))
    ∧ reconstructPt (basisOf (0 : Matrix (Fin 1) (Fin 1) ℝ) 1 1 le_rfl)
        (scaleOf (0 : Matrix (Fin 1) (Fin 1) ℝ) 1 1 le_rfl)
        (projectPt (basisOf (0 : Matrix (Fin 1) (Fin 1) ℝ) 1 1 le_rfl) ![(1 : ℝ)])
      ≠ ![(1 : ℝ)] := by
  refine ⟨by simp, ?_, ?_, ?_⟩
  · rw [Matrix.rank_zero]
    norm_num
  · refine ⟨![(1 : ℝ)], ?_⟩
    funext j
    fin_cases j
    simp [Matrix.vecMul, Matrix.dotProduct, Vtop, Fin.sum_univ_one, Matrix.one_apply]
  · intro heq
    have h0 := congrFun heq 0
    rw [basisOf_zero_one] at h0
    simp [reconstructPt, projectPt, Matrix.vecMul_zero] at h0

/-- Witness for C2 (amended) at the identity 1-by-1 data matrix: scale is 1
and the round trip fixes the point 1. -/
theorem c2_round_trip_fixed_point_witness :
    reconstructPt (basisOf (1 : Matrix (Fin 1) (Fin 1) ℝ) 1 1 le_rfl)
        (scaleOf (1 : Matrix (Fin 1) (Fin 1) ℝ) 1 1 le_rfl)
        (projectPt (basisOf (1 : Matrix (Fin 1) (Fin 1) ℝ) 1 1 le_rfl) ![(1 : ℝ)])
      = ![(1 : ℝ)] := by
  refine c2_round_trip_fixed_point (1 : Matrix (Fin 1) (Fin 1) ℝ) 1 le_rfl ![(1 : ℝ)]
    (by simp) ?_ ?_ ?_
  · calc (1 : Matrix (Fin 1) (Fin 1) ℝ).rank
        ≤ Fintype.card (Fin 1) := Matrix.rank_le_card_width 1
      _ = 1 := by simp
  · refine ⟨![(1 : ℝ)], ?_⟩
    funext j
    fin_cases j
    simp [Matrix.vecMul, Matrix.dotProduct, Vtop, Fin.sum_univ_one, Matrix.one_apply]
  · rw [scaleOf_one_one]
    norm_num

/-- C7 (amended): whenever the scale is positive and n_basis ≤ d, the Gram
matrix basis^T . basis is diagonal of size n_basis with every diagonal entry
1/scale (when n_basis > d numpy slicing clips the stored basis, so the Gram
matrix is min(n_basis, d) square instead). -/
theorem c7_gram_diagonal {n d nb : ℕ} (data : Matrix (Fin n) (Fin d) ℝ)
    (V : Matrix (Fin d) (Fin d) ℝ) (h : nb ≤ d)
    (hV : V * Vᵀ = 1) (hs : 0 < scaleOf data V nb h) :
    (basisOf data V nb h)ᵀ * basisOf data V nb h
      = Matrix.diagonal (fun _ : Fin nb => 1 / scaleOf data V nb h) := by
  have hW := vtop_orthonormal_rows V nb h hV
  rw [basisOf_eq_smul, Matrix.transpose_smul, Matrix.transpose_transpose]
  rw [Matrix.smul_mul, Matrix.mul_smul, smul_smul, hW]
  have hcc : (Real.sqrt (scaleOf data V nb h))⁻¹ * (Real.sqrt (scaleOf data V nb h))⁻¹
      = (scaleOf data V nb h)⁻¹ := by
    rw [← mul_inv, Real.mul_self_sqrt (le_of_lt hs)]
  rw [hcc]
  ext i j
  simp [Matrix.diagonal_apply, Matrix.smul_apply, Matrix.one_apply, one_div,
    mul_ite, mul_one, mul_zero]

/-- Counterexample for C7 as stated: with d = 1, n_basis = 2 and positive
scale 1, the Gram matrix basis^T . basis is 1-by-1 (numpy slicing clips the
basis), not the claimed n_basis-by-n_basis = 2-by-2. -/
theorem c7_gram_shape_counterexample :
    computeScaleL [[(1 : ℝ)]] [[(1 : ℝ)]] 2 = 1
    ∧ (matMulL (transposeL (computeBasisL [[(1 : ℝ)]] [[(1 : ℝ)]] 2))
        (computeBasisL [[(1 : ℝ)]] [[(1 : ℝ)]] 2)).length = 1
    ∧ (1 : ℕ) ≠ 2 := by
  refine ⟨?_, rfl, by norm_num⟩
  simp [computeScaleL, matMulL, transposeL, colCount, dotL, rowNormL,
    show List.range 1 = [0] from rfl, Real.sqrt_one]

/-- Witness for C7 (amended) at the identity 1-by-1 instance with scale 1. -/
theorem c7_gram_diagonal_witness :
    (basisOf (1 : Matrix (Fin 1) (Fin 1) ℝ) 1 1 le_rfl)ᵀ
        * basisOf (1 : Matrix (Fin 1) (Fin 1) ℝ) 1 1 le_rfl
      = Matrix.diagonal
          (fun _ : Fin 1 => 1 / scaleOf (1 : Matrix (Fin 1) (Fin 1) ℝ) 1 1 le_rfl) := by
  refine c7_gram_diagonal 1 1 le_rfl (by simp) ?_
  rw [scaleOf_one_one]
  norm_num

theorem sum_fin_castLE {d k : ℕ} (h : k ≤ d) (F : Fin d → ℝ) :
    ∑ a : Fin k, F (Fin.castLE h a)
      = ∑ t ∈ Finset.univ.filter (fun t : Fin d => (t : ℕ) < k), F t := by
  refine Finset.sum_bij' (fun (a : Fin k) _ => Fin.castLE h a)
    (fun t ht => ⟨(t : ℕ), (Finset.mem_filter.mp ht).2⟩) ?_ ?_ ?_ ?_ ?_
  · intro a _
    simp only [Finset.mem_filter, Finset.mem_univ, true_and, Fin.coe_castLE]
    exact a.isLt
  · intro t _
    exact Finset.mem_univ _
  · intro a _
    rfl
  · intro t _
    rfl
  · intro a _
    rfl

theorem sum_sq_orthosum {d : ℕ} (V : Matrix (Fin d) (Fin d) ℝ) (hV : V * Vᵀ = 1)
    (T : Finset (Fin d)) (c : Fin d → ℝ) :
    ∑ j, (∑ t ∈ T, c t * V t j) ^ 2 = ∑ t ∈ T, (c t) ^ 2 := by
  have horth : ∀ t u : Fin d, ∑ j, V t j * V u j = if t = u then 1 else 0 := by
    intro t u
    have hentry := congrFun (congrFun hV t) u
    simpa [Matrix.mul_apply, Matrix.transpose_apply, Matrix.one_apply] using hentry
  calc ∑ j, (∑ t ∈ T, c t * V t j) ^ 2
      = ∑ j, ∑ t ∈ T, ∑ u ∈ T, (c t * V t j) * (c u * V u j) := by
        refine Finset.sum_congr rfl (fun j _ => ?_)
        rw [pow_two, Finset.sum_mul_sum]
    _ = ∑ t ∈ T, ∑ u ∈ T, (c t * c u) * ∑ j, V t j * V u j := by
        rw [Finset.sum_comm]
        refine Finset.sum_congr rfl (fun t _ => ?_)
        rw [Finset.sum_comm]
        refine Finset.sum_congr rfl (fun u _ => ?_)
        rw [Finset.mul_sum]
        exact Finset.sum_congr rfl (fun j _ => by ring)
    _ = ∑ t ∈ T, ∑ u ∈ T, if t = u then c t * c u else 0 := by
        refine Finset.sum_congr rfl fun t _ => Finset.sum_congr rfl fun u _ => ?_
        rw [horth t u, mul_ite, mul_one, mul_zero]
    _ = ∑ t ∈ T, (c t) ^ 2 := by
        refine Finset.sum_congr rfl (fun t ht => ?_)
        rw [Finset.sum_ite_eq T t (fun u => c t * c u), if_pos ht, pow_two]

theorem residual_entry {n d k : ℕ} (data : Matrix (Fin n) (Fin d) ℝ)
    (V : Matrix (Fin d) (Fin d) ℝ) (hk : k ≤ d) (hV : V * Vᵀ = 1)
    (i : Fin n) (j : Fin d) :
    data i j - (data * (Vtop V k hk)ᵀ * Vtop V k hk) i j
      = ∑ t ∈ Finset.univ.filter (fun t : Fin d => k ≤ (t : ℕ)),
          (data * Vᵀ) i t * V t j := by
  have hVt : Vᵀ * V = 1 := Matrix.mul_eq_one_comm.mp hV
  have hfull : data i j = ∑ t, (data * Vᵀ) i t * V t j := by
    have hdata : data = data * Vᵀ * V := by
      rw [Matrix.mul_assoc, hVt, Matrix.mul_one]
    conv_lhs => rw [hdata]
    rw [Matrix.mul_apply]
  have htrunc : (data * (Vtop V k hk)ᵀ * Vtop V k hk) i j
      = ∑ t ∈ Finset.univ.filter (fun t : Fin d => (t : ℕ) < k),
          (data * Vᵀ) i t * V t j := by
    rw [Matrix.mul_apply]
    have hentry : ∀ a : Fin k,
        (data * (Vtop V k hk)ᵀ) i a * Vtop V k hk a j
          = (data * Vᵀ) i (Fin.castLE hk a) * V (Fin.castLE hk a) j := by
      intro a
      simp [Matrix.mul_apply, Vtop, Matrix.transpose_apply]
    rw [Finset.sum_congr rfl (fun a _ => hentry a)]
    exact sum_fin_castLE hk (fun t => (data * Vᵀ) i t * V t j)
  have hsplit := Finset.sum_filter_add_sum_filter_not Finset.univ
    (fun t : Fin d => (t : ℕ) < k) (fun t => (data * Vᵀ) i t * V t j)
  have hnotlt : Finset.univ.filter (fun t : Fin d => ¬ (t : ℕ) < k)
      = Finset.univ.filter (fun t : Fin d => k ≤ (t : ℕ)) := by
    refine Finset.filter_congr (fun t _ => ?_)
    simp [Nat.not_lt]
  rw [hfull, htrunc, ← hsplit, hnotlt]
  ring

theorem residual_row_sq {n d k : ℕ} (data : Matrix (Fin n) (Fin d) ℝ)
    (V : Matrix (Fin d) (Fin d) ℝ) (hk : k ≤ d) (hV : V * Vᵀ = 1) (i : Fin n) :
    ∑ j, (data i j - (data * (Vtop V k hk)ᵀ * Vtop V k hk) i j) ^ 2
      = ∑ t ∈ Finset.univ.filter (fun t : Fin d => k ≤ (t : ℕ)),
          ((data * Vᵀ) i t) ^ 2 := by
  calc ∑ j, (data i j - (data * (Vtop V k hk)ᵀ * Vtop V k hk) i j) ^ 2
      = ∑ j, (∑ t ∈ Finset.univ.filter (fun t : Fin d => k ≤ (t : ℕ)),
          (data * Vᵀ) i t * V t j) ^ 2 := by
        refine Finset.sum_congr rfl (fun j _ => ?_)
        rw [residual_entry data V hk hV i j]
    _ = ∑ t ∈ Finset.univ.filter (fun t : Fin d => k ≤ (t : ℕ)),
          ((data * Vᵀ) i t) ^ 2 :=
        sum_sq_orthosum V hV _ _

/-- C8: for a fixed data matrix and basis ranks k1 ≤ k2 (both with positive
stored scale, which holds for any nonzero data under a genuine SVD), the
Frobenius reconstruction error of the round trip on the training data with
n_basis = k2 is at most the error with n_basis = k1. -/
theorem c8_reconstruction_error_monotone {n d : ℕ} (data : Matrix (Fin n) (Fin d) ℝ)
    (V : Matrix (Fin d) (Fin d) ℝ) (k1 k2 : ℕ) (h12 : k1 ≤ k2) (h2 : k2 ≤ d)
    (hV : V * Vᵀ = 1)
    (hs1 : 0 < scaleOf data V k1 (le_trans h12 h2))
    (hs2 : 0 < scaleOf data V k2 h2) :
    reconError data V k2 h2 ≤ reconError data V k1 (le_trans h12 h2) := by
  have h1 : k1 ≤ d := le_trans h12 h2
  have hcancel1 := recon_project_cancel data V h1 hs1 data
  have hcancel2 := recon_project_cancel data V h2 hs2 data
  rw [reconError, reconError, hcancel1, hcancel2]
  apply Real.sqrt_le_sqrt
  have hrow1 : ∀ i, ∑ j, (data i j - (data * (Vtop V k1 h1)ᵀ * Vtop V k1 h1) i j) ^ 2
      = ∑ t ∈ Finset.univ.filter (fun t : Fin d => k1 ≤ (t : ℕ)), ((data * Vᵀ) i t) ^ 2 :=
    residual_row_sq data V h1 hV
  have hrow2 : ∀ i, ∑ j, (data i j - (data * (Vtop V k2 h2)ᵀ * Vtop V k2 h2) i j) ^ 2
      = ∑ t ∈ Finset.univ.filter (fun t : Fin d => k2 ≤ (t : ℕ)), ((data * Vᵀ) i t) ^ 2 :=
    residual_row_sq data V h2 hV
  refine Finset.sum_le_sum (fun i _ => ?_)
  rw [hrow1 i, hrow2 i]
  refine Finset.sum_le_sum_of_subset_of_nonneg ?_ (fun t _ _ => sq_nonneg _)
  intro t ht
  simp only [Finset.mem_filter, Finset.mem_univ, true_and] at ht ⊢
  omega

/-- Witness for C8 at the 2-by-2 identity data matrix with ranks 1 and 2:
both scales are positive (1/4 and 1) and the error comparison holds. -/
theorem c8_reconstruction_error_monotone_witness :
    reconError (1 : Matrix (Fin 2) (Fin 2) ℝ) 1 2 le_rfl
      ≤ reconError (1 : Matrix (Fin 2) (Fin 2) ℝ) 1 1 (by norm_num) := by
  have hs1 : (0 : ℝ) < scaleOf (1 : Matrix (Fin 2) (Fin 2) ℝ) 1 1 (by norm_num) := by
    have hval : scaleOf (1 : Matrix (Fin 2) (Fin 2) ℝ) 1 1 (by norm_num) = (1 / 2) ^ 2 := by
      simp [scaleOf, projData, rowNorm, Vtop, Matrix.mul_apply, Matrix.one_apply,
        Fin.sum_univ_two, Fin.sum_univ_one, Fin.ext_iff, Real.sqrt_one]
    rw [hval]
    norm_num
  have hs2 : (0 : ℝ) < scaleOf (1 : Matrix (Fin 2) (Fin 2) ℝ) 1 2 le_rfl := by
    have hval : scaleOf (1 : Matrix (Fin 2) (Fin 2) ℝ) 1 2 le_rfl = 1 := by
      simp [scaleOf, projData, rowNorm, Vtop, Matrix.mul_apply, Matrix.one_apply,
        Fin.sum_univ_two, Fin.ext_iff, Real.sqrt_one]
    rw [hval]
    norm_num
  exact c8_reconstruction_error_monotone 1 1 1 2 (by norm_num) le_rfl (by simp) hs1 hs2

/-- C9: a FunctionSpace instance starts with none of basis, scale, S set;
every cache state reachable through the property accessors satisfies the
joint invariant (the three slots are filled together, never a partial
subset, and compute_basis has run exactly once when they are filled); the
first access to any of the three accessors triggers the single joint
computation; and once filled, each accessor returns the cached value and
leaves the state untouched. The constructor arguments live outside the
mutable state, so the instance is otherwise immutable. -/
theorem c9_lazy_joint_cache {d nb : ℕ}
    (svd : (n : ℕ) → Matrix (Fin n) (Fin d) ℝ → List ℝ × Matrix (Fin d) (Fin d) ℝ)
    (cfg : FSpaceCfg d nb) (h : nb ≤ d) :
    ((initFS d nb).basisF = none ∧ (initFS d nb).scaleF = none
      ∧ (initFS d nb).svalsF = none ∧ (initFS d nb).computeCount = 0)
    ∧ (∀ st : FSState d nb, ReachState svd cfg h st → jointInv st)
    ∧ ((accBasis svd cfg h (initFS d nb)).2
        = FSState.mk (some (fsComputeArtifacts svd cfg h).basis)
            (some (fsComputeArtifacts svd cfg h).scale)
            (some (fsComputeArtifacts svd cfg h).svals) 1
      ∧ (accScale svd cfg h (initFS d nb)).2
        = FSState.mk (some (fsComputeArtifacts svd cfg h).basis)
            (some (fsComputeArtifacts svd cfg h).scale)
            (some (fsComputeArtifacts svd cfg h).svals) 1
      ∧ (accS svd cfg h (initFS d nb)).2
        = FSState.mk (some (fsComputeArtifacts svd cfg h).basis)
            (some (fsComputeArtifacts svd cfg h).scale)
            (some (fsComputeArtifacts svd cfg h).svals) 1)
    ∧ (∀ st : FSState d nb, st.basisF.isSome → st.scaleF.isSome → st.svalsF.isSome →
        accBasis svd cfg h st = (st.basisF.getD 0, st)
        ∧ accScale svd cfg h st = (st.scaleF.getD 0, st)
        ∧ accS svd cfg h st = (st.svalsF.getD [], st)) := by
  refine ⟨⟨rfl, rfl, rfl, rfl⟩, ?_, ⟨rfl, rfl, rfl⟩, ?_⟩
  · intro st hr
    induction hr with
    | base => simp [initFS, jointInv]
    | stepBasis hr ih =>
        rename_i st'
        cases hb : st'.basisF with
        | some b => simpa [accBasis, hb] using ih
        | none =>
            have hcount : st'.computeCount = 0 := by
              have := ih.2.2
              rwa [hb, if_neg (by simp)] at this
            simp [accBasis, hb, doCompute, jointInv, hcount]
    | stepScale hr ih =>
        rename_i st'
        cases hsc : st'.scaleF with
        | some s => simpa [accScale, hsc] using ih
        | none =>
            have hbn : st'.basisF = none := by
              cases hbm : st'.basisF with
              | none => rfl
              | some b =>
                  have := ih.1
                  rw [hbm, hsc] at this
                  simp at this
            have hcount : st'.computeCount = 0 := by
              have := ih.2.2
              rwa [hbn, if_neg (by simp)] at this
            simp [accScale, hsc, doCompute, jointInv, hcount]
    | stepS hr ih =>
        rename_i st'
        cases hsv : st'.svalsF with
        | some s => simpa [accS, hsv] using ih
        | none =>
            have hbn : st'.basisF = none := by
              cases hbm : st'.basisF with
              | none => rfl
              | some b =>
                  have := ih.2.1
                  rw [hbm, hsv] at this
                  simp at this
            have hcount : st'.computeCount = 0 := by
              have := ih.2.2
              rwa [hbn, if_neg (by simp)] at this
            simp [accS, hsv, doCompute, jointInv, hcount]
  · intro st h1 h2 h3
    obtain ⟨b, hb⟩ := Option.isSome_iff_exists.mp h1
    obtain ⟨s, hs⟩ := Option.isSome_iff_exists.mp h2
    obtain ⟨sv, hsv⟩ := Option.isSome_iff_exists.mp h3
    exact ⟨by simp [accBasis, hb], by simp [accScale, hs], by simp [accS, hsv]⟩

/-- Witness for C9: after one basis access on a fresh concrete instance the
joint invariant holds (all three artifacts cached, one computation). -/
theorem c9_lazy_joint_cache_witness :
    jointInv ((accBasis (fun _ _ => ([], 1))
      (FSpaceCfg.mk (SpaceSrc.fixed 1 (0 : Matrix (Fin 1) (Fin 1) ℝ)) 1 0) le_rfl
      (initFS 1 1)).2) :=
  (c9_lazy_joint_cache (fun _ _ => ([], 1))
    (FSpaceCfg.mk (SpaceSrc.fixed 1 (0 : Matrix (Fin 1) (Fin 1) ℝ)) 1 0) le_rfl).2.1 _
    (ReachState.stepBasis ReachState.base)

/-- C10: two FunctionSpace instances constructed with the same space, the
same n_samples, the same seed and the same n_basis (the shared type index)
compute identical scale, basis and singular values: compute_basis consumes
only the constructor arguments and the own seeded generator of the instance,
never an outside randomness source. -/
theorem c10_compute_basis_deterministic {d nb : ℕ}
    (svd : (n : ℕ) → Matrix (Fin n) (Fin d) ℝ → List ℝ × Matrix (Fin d) (Fin d) ℝ)
    (cfg1 cfg2 : FSpaceCfg d nb) (h : nb ≤ d)
    (hspace : cfg1.space = cfg2.space) (hns : cfg1.n_samples = cfg2.n_samples)
    (hseed : cfg1.seed = cfg2.seed) :
    fsComputeArtifacts svd cfg1 h = fsComputeArtifacts svd cfg2 h := by
  obtain ⟨s1, ns1, sd1⟩ := cfg1
  obtain ⟨s2, ns2, sd2⟩ := cfg2
  simp only at hspace hns hseed
  subst hspace
  subst hns
  subst hseed
  rfl

/-- Witness for C10 at concrete equal configurations written differently. -/
theorem c10_compute_basis_deterministic_witness :
    fsComputeArtifacts (fun _ _ => ([], 1))
        (FSpaceCfg.mk (SpaceSrc.fixed 1 (0 : Matrix (Fin 1) (Fin 1) ℝ)) (2 + 3) 7) le_rfl
      = fsComputeArtifacts (fun _ _ => ([], 1))
        (FSpaceCfg.mk (SpaceSrc.fixed 1 (0 : Matrix (Fin 1) (Fin 1) ℝ)) 5 (3 + 4)) le_rfl :=
  c10_compute_basis_deterministic (fun _ _ => ([], 1)) _ _ le_rfl rfl (by norm_num)
    (by norm_num)

end NengoFS
